import Mathlib

/-!
# Verification of the strix-install installer core (src/installer.py)

A shallow embedding of the `ArchInstaller` class. Python strings are modelled
as `List Char` where character-level reasoning is needed and as `String` where
only whole messages matter; Python lists as `List`; raised exceptions as
`Except`; the `KeyboardInterrupt` raised on Ctrl+C as the `.error` branch.
Wall-clock timestamps prepended by `add_log` are outside the embedding: a log
entry is modelled as its level together with its message text.
-/

namespace StrixInstall

/-! ## Substring machinery (Python `in` operator on strings) -/

/-- `Pre t s`: `t` is an initial segment of `s`. -/
def Pre (t s : List Char) : Prop := ∃ r, s = t ++ r

/-- `Suf t s`: `t` is a final segment of `s`. -/
def Suf (t s : List Char) : Prop := ∃ l, s = l ++ t

/-- `Sub t s`: `t` occurs contiguously inside `s` (Python `t in s`). -/
def Sub (t s : List Char) : Prop := ∃ l r, s = l ++ t ++ r

/-- `s` ends with the character `x`. -/
def EndsWith (x : Char) (s : List Char) : Prop := ∃ u, s = u ++ [x]

/-- Executable check that `s` starts with `t`. -/
def startsWithLC : List Char → List Char → Bool
  | [], _ => true
  | _ :: _, [] => false
  | a :: t, b :: s => a == b && startsWithLC t s

/-- Executable substring check, the Python expression `t in s` on strings. -/
def containsSub : List Char → List Char → Bool
  | t, [] => startsWithLC t []
  | t, b :: s => startsWithLC t (b :: s) || containsSub t s

/-! ## Python `repr` of a string and `str` of a list of strings

`install_package_interactive` (installer.py:252-258) tests
`"..." in str(self.pacman_output[-5:])`: the Python `str` of a *list slice*,
which is `"[" ++ ", ".join(repr(line)) ++ "]"`.  We model CPython `repr` for
`str`: the delimiter quote is `'` unless the string contains `'` but no `"`;
backslash and the delimiter are backslash-escaped; newline, carriage return
and tab print as `\n`, `\r`, `\t`; remaining ASCII control characters
(code < 32 or 127) print as `\xNN` with lowercase hex digits.  Codepoints
that CPython would escape as `\xNN`/`\uNNNN` because they are non-printable
*non-ASCII* are rendered literally here; either rendering is inert for the
detector, since the prompt substrings are plain printable ASCII and both
renderings contribute no such characters. -/

/-- Lowercase hexadecimal digit, for `m < 16`. -/
def hexDigit (m : Nat) : Char :=
  if m < 10 then Char.ofNat (48 + m) else Char.ofNat (87 + m)

/-- Two lowercase hex digits of a byte, as in CPython `\xNN` escapes. -/
def hexByte (n : Nat) : List Char := [hexDigit (n / 16 % 16), hexDigit (n % 16)]

/-- CPython escaping of one character inside a `repr` with delimiter `q`. -/
def pyEscapeChar (q : Char) (c : Char) : List Char :=
  if c = '\\' then ['\\', '\\']
  else if c = q then ['\\', q]
  else if c = '\n' then ['\\', 'n']
  else if c = '\r' then ['\\', 'r']
  else if c = '\t' then ['\\', 't']
  else if c.toNat < 32 ∨ c.toNat = 127 then '\\' :: 'x' :: hexByte c.toNat
  else [c]

/-- The delimiter quote CPython `repr` picks for a string. -/
def pyQuote (s : List Char) : Char :=
  if '\'' ∈ s ∧ ¬ '"' ∈ s then '"' else '\''

/-- Body of a `repr`: every character escaped with delimiter `q`. -/
def joinEsc (q : Char) (e : List Char) : List Char :=
  (e.map (pyEscapeChar q)).flatten

/-- CPython `repr` of a string. -/
def pyReprStr (e : List Char) : List Char :=
  pyQuote e :: (joinEsc (pyQuote e) e ++ [pyQuote e])

/-- The `", "` separator of Python list display. -/
def sepLC : List Char := [',', ' ']

/-- Python `", ".join`. -/
def joinSep : List (List Char) → List Char
  | [] => []
  | [a] => a
  | a :: b :: rest => a ++ sepLC ++ joinSep (b :: rest)

/-- Python `str` of a list of strings: `[` repr `, ` repr … `]`. -/
def pyStrList (l : List (List Char)) : List Char :=
  '[' :: (joinSep (l.map pyReprStr) ++ [']'])

/-- Python slice `l[-n:]` for `n > 0`: the last `n` elements. -/
def lastN {α : Type} (n : Nat) (l : List α) : List α :=
  l.drop (l.length - n)

/-- Characters that CPython `repr` renders as themselves and that cannot be
part of a quote, separator or escape: printable ASCII other than backslash,
either quote, and comma.  Every character of the three prompt substrings is
plain in this sense. -/
def PlainChar (c : Char) : Prop :=
  32 ≤ c.toNat ∧ c.toNat ≤ 126 ∧ c ≠ '\\' ∧ c ≠ '\'' ∧ c ≠ '"' ∧ c ≠ ','

instance instDecidablePlainChar (c : Char) : Decidable (PlainChar c) :=
  inferInstanceAs (Decidable
    (32 ≤ c.toNat ∧ c.toNat ≤ 126 ∧ c ≠ '\\' ∧ c ≠ '\'' ∧ c ≠ '"' ∧ c ≠ ','))

/-- Every character that can occur at position ≥ 1 of some `pyEscapeChar`
output. -/
def escTailChars : List Char :=
  ['\\', '\'', '"', 'n', 'r', 't', 'x'] ++
    (List.range 10).map (fun i => Char.ofNat (48 + i)) ++
    (List.range 6).map (fun i => Char.ofNat (97 + i))

/-- The first character of `t` is not an escape-tail character. -/
def headNotEscTail (t : List Char) : Prop :=
  ∀ x ∈ t.take 1, x ∉ escTailChars

instance instDecidableHeadNotEscTail (t : List Char) :
    Decidable (headNotEscTail t) :=
  inferInstanceAs (Decidable (∀ x ∈ t.take 1, x ∉ escTailChars))

/-! ## Output and log buffers (installer.py:190-199) -/

/-- One record of `custom_logs`.  The source stores the formatted line
`"[{timestamp}] {log_type}: {message}"`; the wall-clock timestamp is outside
the embedding, so an entry is its level and message. -/
structure LogEntry where
  level : String
  message : String
deriving DecidableEq

/-- `add_log` (installer.py:190-194): unconditionally appends one entry. -/
def add_log (logs : List LogEntry) (message : String) (log_type : String) :
    List LogEntry :=
  logs ++ [⟨log_type, message⟩]

/-- Python `str.isspace` membership for the ASCII whitespace characters;
`strip`/`rstrip` additionally strip some Unicode spaces, which no claim
exercises. -/
def pyIsSpace (c : Char) : Bool :=
  c = ' ' || c = '\t' || c = '\n' || c = '\r' || c = '\x0b' || c = '\x0c'

/-- Python `line.rstrip()`. -/
def pyRstrip (s : List Char) : List Char :=
  (s.reverse.dropWhile pyIsSpace).reverse

/-- Python `line.strip()`. -/
def pyStrip (s : List Char) : List Char :=
  pyRstrip (s.dropWhile pyIsSpace)

/-- `add_pacman_output` (installer.py:196-199): append the rstripped line
when `line.strip()` is truthy (non-empty); drop blank lines. -/
def add_pacman_output (buf : List (List Char)) (line : List Char) :
    List (List Char) :=
  if pyStrip line = [] then buf else buf ++ [pyRstrip line]

/-- The log window the renderer shows: `self.custom_logs[-10:]`
(installer.py:93). -/
def recent_logs (logs : List LogEntry) : List LogEntry := lastN 10 logs

/-- The output window the renderer shows: `self.pacman_output[-18:]`
(installer.py:102). -/
def recent_output (buf : List (List Char)) : List (List Char) := lastN 18 buf

/-! ## Prompt detection (installer.py:252-258)

The loop evaluates `str(self.pacman_output[-5:])` three times on the same
(pure) data; we compute it once. -/

/-- The condition of installer.py:254-258: any of the three fixed
case-sensitive substrings occurs in the Python string display of the last
five buffered output lines. -/
def promptDetected (pacman_output : List (List Char)) : Bool :=
  let s := pyStrList (lastN 5 pacman_output)
  containsSub "Proceed with installation".toList s ||
    containsSub "Continue?".toList s ||
    containsSub "[Y/n]".toList s

/-- The three prompt substrings hard-coded in the source. -/
def prompt_targets : List (List Char) :=
  ["Proceed with installation".toList, "Continue?".toList, "[Y/n]".toList]

/-! ## Confirmation reply (installer.py:259-266) -/

/-- An action on the child process standard input stream. -/
inductive StdinEvent where
  | write (s : List Char)
  | flush
deriving DecidableEq

/-- One iteration of the interactive monitor loop body
(installer.py:252-266), given the captured user line: when a prompt is
detected, an empty line defaults to `"Y"`, and `f"{user_input}\n"` is
written and the stream flushed; otherwise nothing touches stdin. -/
def monitor_step_events (buf : List (List Char)) (user_input : List Char) :
    List StdinEvent :=
  if promptDetected buf then
    [StdinEvent.write ((if user_input = [] then ['Y'] else user_input) ++ ['\n']),
     StdinEvent.flush]
  else []

/-! ## Raw input capture (installer.py:148-188) -/

/-- The mutable input fields of the installer: `input_buffer`,
`waiting_for_input` and `input_queue`. -/
structure InputState where
  input_buffer : List Char
  waiting_for_input : Bool
  input_queue : List (List Char)
deriving DecidableEq

/-- State at the top of `wait_for_input` (installer.py:175-177): buffer
cleared, flag set; the queue is empty because every `put` is immediately
consumed by the matching `get_nowait`. -/
def initial_wait_state : InputState := ⟨[], true, []⟩

/-- `handle_input` (installer.py:155-171).  `KeyboardInterrupt` is the
`.error` branch; the returned `Bool` is the Python return value.  The
`elif char and ord(char) >= 32` guard: `char` is a one-character string
here, hence always truthy. -/
def handle_input (st : InputState) (c : Char) : Except Unit (InputState × Bool) :=
  if c = '\r' ∨ c = '\n' then
    .ok (⟨[], false, st.input_queue ++ [st.input_buffer]⟩, true)
  else if c = '\x7f' ∨ c = '\x08' then
    .ok (⟨if st.input_buffer = [] then st.input_buffer else st.input_buffer.dropLast,
          st.waiting_for_input, st.input_queue⟩, false)
  else if c = '\x03' then
    .error ()
  else if 32 ≤ c.toNat then
    .ok (⟨st.input_buffer ++ [c], st.waiting_for_input, st.input_queue⟩, false)
  else
    .ok (st, false)

/-- Feed a character sequence through `handle_input`, stopping on
`KeyboardInterrupt`. -/
def feed_chars (st : InputState) : List Char → Except Unit InputState
  | [] => .ok st
  | c :: cs =>
    match handle_input st c with
    | .error e => .error e
    | .ok (st', _) => feed_chars st' cs

/-- What `wait_for_input` returns once the loop ends
(installer.py:185-188): `input_queue.get_nowait()`, or `""` when empty. -/
def wait_result (st : InputState) : List Char :=
  (st.input_queue.head?).getD []

/-- `get_char` (installer.py:148-153): with no TTY, or nothing selectable,
returns `None`; `avail` models what `select` + `read(1)` would yield. -/
def get_char (isatty : Bool) (avail : Option Char) : Option Char :=
  if isatty then avail else none

/-- State of the `wait_for_input` polling loop (installer.py:179-183) after
`n` iterations, `stream k` being the character available at tick `k`. -/
def wait_poll_iter (isatty : Bool) (stream : Nat → Option Char) :
    Nat → Except Unit InputState
  | 0 => .ok initial_wait_state
  | n + 1 =>
    match wait_poll_iter isatty stream n with
    | .error e => .error e
    | .ok st =>
      if st.waiting_for_input then
        match get_char isatty (stream n) with
        | some c =>
          match handle_input st c with
          | .error e => .error e
          | .ok (st', _) => .ok st'
        | none => .ok st
      else .ok st

/-! ## Terminal setup and restore (installer.py:137-146, 408-415) -/

/-- The `termios` settings of the controlling terminal, abstractly, plus the
`old_terminal_settings` field (initially `None`, installer.py:45). -/
structure TerminalState where
  mode : Nat
  old_terminal_settings : Option Nat
deriving DecidableEq

/-- `setup_terminal` (installer.py:137-141): on a TTY, save the current
settings and switch to raw mode; otherwise do nothing. -/
def setup_terminal (isatty : Bool) (raw : Nat) (ts : TerminalState) :
    TerminalState :=
  if isatty then ⟨raw, some ts.mode⟩ else ts

/-- `restore_terminal` (installer.py:143-146): reapply the saved settings if
any were saved; the saved settings are kept, not cleared. -/
def restore_terminal (ts : TerminalState) : TerminalState :=
  match ts.old_terminal_settings with
  | some o => ⟨o, some o⟩
  | none => ts

/-- How the `try` body of `run_installer` (installer.py:376-415) ends. -/
inductive BodyOutcome where
  | normal
  | keyboardInterrupt
  | unexpectedError (msg : String)
deriving DecidableEq

/-- Observable actions of `run_installer`, in order. -/
inductive RunEvent where
  | setupTerminal
  | logEvent (level msg : String)
  | terminateProcess
  | restoreTerminal
deriving DecidableEq

/-- `run_installer` control skeleton: `setup_terminal` inside the `try`; the
two `except` handlers; `restore_terminal` in the `finally` on every path.
Returns the final terminal state and the event trace. -/
def run_installer (ts : TerminalState) (isatty : Bool) (raw : Nat)
    (body : BodyOutcome) (hasProcess : Bool) : TerminalState × List RunEvent :=
  let ts1 := setup_terminal isatty raw ts
  let bodyEvents :=
    match body with
    | .normal => [RunEvent.logEvent "INFO" "Installer finished successfully"]
    | .keyboardInterrupt =>
      RunEvent.logEvent "WARNING" "Installation interrupted by user" ::
        (if hasProcess then [RunEvent.terminateProcess] else [])
    | .unexpectedError m => [RunEvent.logEvent "ERROR" ("Unexpected error: " ++ m)]
  (restore_terminal ts1, RunEvent.setupTerminal :: (bodyEvents ++ [RunEvent.restoreTerminal]))

/-! ## Command vectors (installer.py:221-230, 296-300) -/

/-- The argument vector of `install_package_interactive`. -/
def install_cmd_interactive (use_yay : Bool) (package : String) : List String :=
  if use_yay then ["yay", "-S", package]
  else ["sudo", "pacman", "-S", package]

/-- The argument vector of `install_package_noconfirm`. -/
def install_cmd_noconfirm (use_yay : Bool) (package : String) : List String :=
  if use_yay then ["yay", "-S", "--noconfirm", package]
  else ["sudo", "pacman", "-S", "--noconfirm", package]

/-- Child-process-facing actions of one package installation. -/
inductive ProcEvent where
  | spawn (cmd : List String)
  | promptCheck (result : Bool)
  | stdinWrite (s : List Char)
  | stdinFlush
  | waitExit
deriving DecidableEq

/-- Event trace of `install_package_noconfirm` (installer.py:290-337): spawn
with `--noconfirm`, then wait for exit; the function has no polling loop and
never touches the child stdin (stdin is not even piped). -/
def install_package_noconfirm_events (use_yay : Bool) (pkg : String) :
    List ProcEvent :=
  [ProcEvent.spawn (install_cmd_noconfirm use_yay pkg), ProcEvent.waitExit]

/-- Event trace of `install_package_interactive` (installer.py:232-270):
spawn, then per monitor-loop iteration a prompt check, and on detection the
stdin write/flush of `monitor_step_events`; finally wait for exit.  `polls`
lists, per iteration, the buffer snapshot and the captured user line. -/
def install_package_interactive_events (use_yay : Bool) (pkg : String)
    (polls : List (List (List Char) × List Char)) : List ProcEvent :=
  ProcEvent.spawn (install_cmd_interactive use_yay pkg) ::
    ((polls.map (fun pr =>
      ProcEvent.promptCheck (promptDetected pr.1) ::
        (monitor_step_events pr.1 pr.2).map (fun e =>
          match e with
          | StdinEvent.write s => ProcEvent.stdinWrite s
          | StdinEvent.flush => ProcEvent.stdinFlush))).flatten
      ++ [ProcEvent.waitExit])

/-! ## Per-package install outcome and the batch loop
(installer.py:215-288, 290-337, 339-372) -/

/-- How one package installation turns out: the child exits with a code, the
attempt raises a Python `Exception` (launch failure or anything else caught
by the `except Exception` handler), or the user interrupts
(`KeyboardInterrupt`, *not* caught by `except Exception`). -/
inductive PkgOutcome where
  | exitCode (code : Int)
  | exn (msg : String)
  | userAbort
deriving DecidableEq

/-- The display/log fields touched by the batch loop. -/
structure InstallerState where
  current_package : String
  installation_status : String
  custom_logs : List LogEntry
  progress_total : Nat
  progress_current : Nat
deriving DecidableEq

/-- Shared body of `install_package_interactive` and
`install_package_noconfirm`: status and log updates, the `try`/`except
Exception` conversion of exceptions into a `False` result plus an ERROR log,
and the propagation of `KeyboardInterrupt` as `.error`. -/
def install_package_step (st : InstallerState) (pkg : String) (o : PkgOutcome) :
    Except Unit (InstallerState × Bool) :=
  let startLogs := add_log st.custom_logs ("Starting installation of " ++ pkg) "INFO"
  let st1 : InstallerState :=
    { st with current_package := pkg,
              installation_status := "Installing " ++ pkg ++ "...",
              custom_logs := startLogs }
  match o with
  | .exitCode c =>
    if c = 0 then
      let logs := add_log st1.custom_logs ("✓ Successfully installed " ++ pkg) "SUCCESS"
      .ok ({ st1 with
             custom_logs := logs,
             installation_status := "✓ " ++ pkg ++ " installed" }, true)
    else
      let msg := "✗ Failed to install " ++ pkg ++ " (exit code: " ++ toString c ++ ")"
      let logs := add_log st1.custom_logs msg "ERROR"
      .ok ({ st1 with
             custom_logs := logs,
             installation_status := "✗ " ++ pkg ++ " failed" }, false)
  | .exn m =>
    let logs := add_log st1.custom_logs ("✗ Exception installing " ++ pkg ++ ": " ++ m) "ERROR"
    .ok ({ st1 with
           custom_logs := logs,
           installation_status := "✗ " ++ pkg ++ " error" }, false)
  | .userAbort => .error ()

/-- The `for` loop of `install_packages` (installer.py:349-366), carrying the
enumeration index and the `successful`/`failed` counters. -/
def install_packages_loop (outcome : String → PkgOutcome) (st : InstallerState) :
    List String → Nat → Nat → Nat → Except Unit (InstallerState × Nat × Nat)
  | [], _, s, f => .ok (st, s, f)
  | p :: rest, i, s, f =>
    let st0 := { st with progress_current := i }
    match install_package_step st0 p (outcome p) with
    | .error e => .error e
    | .ok (st1, success) =>
      let st2 := { st1 with progress_current := i + 1 }
      if success then install_packages_loop outcome st2 rest (i + 1) (s + 1) f
      else install_packages_loop outcome st2 rest (i + 1) s (f + 1)

/-- `install_packages` (installer.py:339-372): run the loop, then write the
final status line and the final summary log entry. -/
def install_packages (st : InstallerState) (pkgs : List String)
    (outcome : String → PkgOutcome) : Except Unit (InstallerState × Nat × Nat) :=
  let st0 := { st with progress_total := pkgs.length, progress_current := 0 }
  match install_packages_loop outcome st0 pkgs 0 0 0 with
  | .error e => .error e
  | .ok (st1, s, f) =>
    let status := "Complete: " ++ toString s ++ " successful, " ++ toString f ++ " failed"
    let summary := "Installation complete: " ++ toString s ++ "/" ++
      toString pkgs.length ++ " packages installed"
    let logs := add_log st1.custom_logs summary "INFO"
    .ok ({ st1 with
           current_package := "",
           installation_status := status,
           custom_logs := logs }, s, f)

/-! ## Progress bar (installer.py:82-86) -/

/-- The status-panel progress line of `update_display`: rendered only when
`progress_total > 0`.  The source computes
`int((progress_current / progress_total) * 20)` with true division, which is
`⌊20·current/total⌋`; it is written here in exact integer arithmetic. -/
def update_display_progress (progress_current progress_total : Nat) :
    Option (List Char) :=
  if 0 < progress_total then
    let bar := List.replicate (progress_current * 20 / progress_total) '█'
    let empty := List.replicate (20 - bar.length) '░'
    some (bar ++ empty)
  else none

/-! ## Substring lemmas -/

theorem pre_nil_elim {t : List Char} (h : Pre t []) : t = [] := by
  obtain ⟨r, hr⟩ := h
  exact (List.append_eq_nil.mp hr.symm).1

theorem sub_nil_elim {t : List Char} (h : Sub t []) : t = [] := by
  obtain ⟨l, r, hr⟩ := h
  have h1 := (List.append_eq_nil.mp hr.symm).1
  exact (List.append_eq_nil.mp h1).2

theorem pre_cons_iff {t s : List Char} {c : Char} :
    Pre t (c :: s) ↔ t = [] ∨ ∃ t', t = c :: t' ∧ Pre t' s := by
  constructor
  · rintro ⟨r, hr⟩
    cases t with
    | nil => exact Or.inl rfl
    | cons a t' =>
      rw [List.cons_append] at hr
      injection hr with h1 h2
      exact Or.inr ⟨t', by rw [h1], ⟨r, h2⟩⟩
  · rintro (rfl | ⟨t', rfl, r, rfl⟩)
    · exact ⟨c :: s, rfl⟩
    · exact ⟨r, rfl⟩

theorem sub_cons_iff {t s : List Char} {c : Char} :
    Sub t (c :: s) ↔ Pre t (c :: s) ∨ Sub t s := by
  constructor
  · rintro ⟨l, r, hr⟩
    cases l with
    | nil => exact Or.inl ⟨r, by simpa using hr⟩
    | cons x l' =>
      rw [List.cons_append] at hr
      injection hr with h1 h2
      exact Or.inr ⟨l', r, h2⟩
  · rintro (⟨r, hr⟩ | ⟨l, r, hr⟩)
    · exact ⟨[], r, by simpa using hr⟩
    · exact ⟨c :: l, r, by simp [hr]⟩

theorem sub_of_pre {t s : List Char} (h : Pre t s) : Sub t s := by
  obtain ⟨r, hr⟩ := h
  exact ⟨[], r, by simpa using hr⟩

theorem pre_append_elim {t a b : List Char} (h : Pre t (a ++ b)) :
    Pre t a ∨ ∃ t2, t = a ++ t2 ∧ Pre t2 b := by
  induction a generalizing t with
  | nil => exact Or.inr ⟨t, rfl, by simpa using h⟩
  | cons c a' ih =>
    have h' : Pre t (c :: (a' ++ b)) := by simpa using h
    rcases pre_cons_iff.mp h' with rfl | ⟨t', rfl, ht'⟩
    · exact Or.inl ⟨c :: a', rfl⟩
    · rcases ih ht' with ⟨r, hr⟩ | ⟨t2, rfl, ht2⟩
      · exact Or.inl ⟨r, by simp [hr]⟩
      · exact Or.inr ⟨t2, by simp, ht2⟩

theorem sub_append_elim {t a b : List Char} (h : Sub t (a ++ b)) :
    Sub t a ∨ Sub t b ∨
      ∃ t1 t2, t = t1 ++ t2 ∧ t1 ≠ [] ∧ t2 ≠ [] ∧ Suf t1 a ∧ Pre t2 b := by
  induction a generalizing t with
  | nil => exact Or.inr (Or.inl (by simpa using h))
  | cons c a' ih =>
    have h' : Sub t (c :: (a' ++ b)) := by simpa using h
    rcases sub_cons_iff.mp h' with hp | hs
    · rcases pre_cons_iff.mp hp with rfl | ⟨t', rfl, ht'⟩
      · exact Or.inl ⟨[], c :: a', rfl⟩
      · rcases pre_append_elim ht' with ⟨r, hr⟩ | ⟨t2, rfl, ht2⟩
        · exact Or.inl ⟨[], r, by simp [hr]⟩
        · by_cases h2 : t2 = []
          · subst h2
            exact Or.inl ⟨[], [], by simp⟩
          · refine Or.inr (Or.inr ⟨c :: a', t2, by simp, by simp, h2, ⟨[], rfl⟩, ht2⟩)
    · rcases ih hs with ⟨l, r, hr⟩ | h1 | ⟨t1, t2, rfl, h1, h2, ⟨l, hl⟩, h4⟩
      · exact Or.inl ⟨c :: l, r, by simp [hr]⟩
      · exact Or.inr (Or.inl h1)
      · exact Or.inr (Or.inr ⟨t1, t2, rfl, h1, h2, ⟨c :: l, by simp [hl]⟩, h4⟩)

theorem sub_append_left {t a : List Char} (b : List Char) (h : Sub t a) :
    Sub t (a ++ b) := by
  obtain ⟨l, r, hr⟩ := h
  exact ⟨l, r ++ b, by simp [hr]⟩

theorem sub_append_right {t b : List Char} (a : List Char) (h : Sub t b) :
    Sub t (a ++ b) := by
  obtain ⟨l, r, hr⟩ := h
  exact ⟨a ++ l, r, by simp [hr]⟩

theorem sub_trans {t u s : List Char} (h1 : Sub t u) (h2 : Sub u s) : Sub t s := by
  obtain ⟨l1, r1, hu⟩ := h1
  obtain ⟨l2, r2, hs⟩ := h2
  exact ⟨l2 ++ l1, r1 ++ r2, by simp [hs, hu]⟩

theorem pre_singleton_elim {t : List Char} {x : Char} (h : Pre t [x]) :
    t = [] ∨ t = [x] := by
  rcases pre_cons_iff.mp h with rfl | ⟨t', rfl, ht'⟩
  · exact Or.inl rfl
  · have := pre_nil_elim ht'
    subst this
    exact Or.inr rfl

theorem sub_singleton_elim {t : List Char} {x : Char} (h : Sub t [x]) :
    t = [] ∨ t = [x] := by
  rcases sub_cons_iff.mp h with hp | hs
  · exact pre_singleton_elim hp
  · exact Or.inl (sub_nil_elim hs)

theorem suf_nil_elim {t : List Char} (h : Suf t []) : t = [] := by
  obtain ⟨l, hl⟩ := h
  exact (List.append_eq_nil.mp hl.symm).2

theorem suf_cons_elim {t s : List Char} {c : Char} (h : Suf t (c :: s)) :
    t = c :: s ∨ Suf t s := by
  obtain ⟨l, hl⟩ := h
  cases l with
  | nil => exact Or.inl (by simpa using hl.symm)
  | cons x l' =>
    rw [List.cons_append] at hl
    injection hl with h1 h2
    exact Or.inr ⟨l', h2⟩

theorem suf_singleton_elim {t : List Char} {x : Char} (h : Suf t [x]) :
    t = [] ∨ t = [x] := by
  rcases suf_cons_elim h with rfl | hs
  · exact Or.inr rfl
  · exact Or.inl (suf_nil_elim hs)

theorem sub_pair_elim {t : List Char} {a b : Char} (h : Sub t [a, b]) :
    t = [] ∨ t = [a] ∨ t = [b] ∨ t = [a, b] := by
  rcases sub_cons_iff.mp h with hp | hs
  · rcases pre_cons_iff.mp hp with rfl | ⟨t', rfl, ht'⟩
    · exact Or.inl rfl
    · rcases pre_singleton_elim ht' with rfl | rfl
      · exact Or.inr (Or.inl rfl)
      · exact Or.inr (Or.inr (Or.inr rfl))
  · rcases sub_singleton_elim hs with rfl | rfl
    · exact Or.inl rfl
    · exact Or.inr (Or.inr (Or.inl rfl))

theorem suf_pair_elim {t : List Char} {a b : Char} (h : Suf t [a, b]) :
    t = [] ∨ t = [b] ∨ t = [a, b] := by
  rcases suf_cons_elim h with rfl | hs
  · exact Or.inr (Or.inr rfl)
  · rcases suf_singleton_elim hs with rfl | rfl
    · exact Or.inl rfl
    · exact Or.inr (Or.inl rfl)

theorem mem_of_sub {t s : List Char} {x : Char} (h : Sub t s) (hx : x ∈ t) :
    x ∈ s := by
  obtain ⟨l, r, rfl⟩ := h
  simp [hx]

theorem pre_head_eq {t' s : List Char} {x : Char} (h : Pre (x :: t') s) :
    ∃ u, s = x :: u := by
  obtain ⟨r, hr⟩ := h
  exact ⟨t' ++ r, by simpa using hr⟩

theorem concat_decomp {t : List Char} (h : t ≠ []) : ∃ t' y, t = t' ++ [y] := by
  cases hr : t.reverse with
  | nil => exact absurd (by simpa using congrArg List.reverse hr) h
  | cons y r' =>
    refine ⟨r'.reverse, y, ?_⟩
    have := congrArg List.reverse hr
    simpa using this

theorem ends_inj {s a b : List Char} {x y : Char}
    (h1 : s = a ++ [x]) (h2 : s = b ++ [y]) : x = y := by
  have h := congrArg List.reverse (h1.symm.trans h2)
  simp at h
  exact h.1

theorem endsWith_append {x : Char} {b : List Char} (a : List Char)
    (h : EndsWith x b) : EndsWith x (a ++ b) := by
  obtain ⟨u, hu⟩ := h
  exact ⟨a ++ u, by simp [hu]⟩

theorem suf_endsWith {t s : List Char} {x : Char} (h : Suf t s) (hne : t ≠ [])
    (he : EndsWith x s) : x ∈ t := by
  obtain ⟨l, hl⟩ := h
  obtain ⟨t', y, rfl⟩ := concat_decomp hne
  obtain ⟨u, hu⟩ := he
  have hs : s = (l ++ t') ++ [y] := by simp [hl]
  have := ends_inj hu hs
  subst this
  simp

theorem startsWith_iff : ∀ (t s : List Char), startsWithLC t s = true ↔ Pre t s := by
  intro t
  induction t with
  | nil =>
    intro s
    simp only [startsWithLC, true_iff]
    exact ⟨s, rfl⟩
  | cons a t' ih =>
    intro s
    cases s with
    | nil =>
      simp only [startsWithLC, Bool.false_eq_true, false_iff]
      rintro ⟨r, hr⟩
      simp at hr
    | cons b s' =>
      simp only [startsWithLC, Bool.and_eq_true, beq_iff_eq]
      rw [ih]
      constructor
      · rintro ⟨rfl, r, rfl⟩
        exact ⟨r, rfl⟩
      · rintro ⟨r, hr⟩
        rw [List.cons_append] at hr
        injection hr with h1 h2
        exact ⟨h1.symm, ⟨r, h2⟩⟩

theorem containsSub_iff : ∀ (s t : List Char), containsSub t s = true ↔ Sub t s := by
  intro s
  induction s with
  | nil =>
    intro t
    simp only [containsSub]
    rw [startsWith_iff]
    constructor
    · exact sub_of_pre
    · intro h
      rw [sub_nil_elim h]
      exact ⟨[], rfl⟩
  | cons b s' ih =>
    intro t
    simp only [containsSub, Bool.or_eq_true]
    rw [startsWith_iff, ih]
    exact sub_cons_iff.symm

/-! ## Escape-level lemmas for the prompt detector -/

theorem hexDigit_mem {m : Nat} (hm : m < 16) : hexDigit m ∈ escTailChars := by
  interval_cases m <;> decide

theorem escape_block (q c : Char) (hq : q = '\'' ∨ q = '"') :
    pyEscapeChar q c = [c] ∨
      ∃ bs, pyEscapeChar q c = '\\' :: bs ∧ ∀ x ∈ bs, x ∈ escTailChars := by
  unfold pyEscapeChar
  split_ifs with h1 h2 h3 h4 h5 h6
  · exact Or.inr ⟨['\\'], rfl, by decide⟩
  · refine Or.inr ⟨[q], rfl, ?_⟩
    intro x hx
    simp only [List.mem_singleton] at hx
    subst hx
    rcases hq with rfl | rfl <;> decide
  · exact Or.inr ⟨['n'], rfl, by decide⟩
  · exact Or.inr ⟨['r'], rfl, by decide⟩
  · exact Or.inr ⟨['t'], rfl, by decide⟩
  · refine Or.inr ⟨'x' :: hexByte c.toNat, rfl, ?_⟩
    intro x hx
    simp only [hexByte, List.mem_cons, List.mem_singleton, List.not_mem_nil,
      or_false] at hx
    rcases hx with rfl | rfl | rfl
    · decide
    · exact hexDigit_mem (Nat.mod_lt _ (by norm_num))
    · exact hexDigit_mem (Nat.mod_lt _ (by norm_num))
  · exact Or.inl rfl

theorem plain_escape {q c : Char} (hq : q = '\'' ∨ q = '"') (hc : PlainChar c) :
    pyEscapeChar q c = [c] := by
  obtain ⟨h1, h2, h3, h4, h5, h6⟩ := hc
  have hnq : c ≠ q := by rcases hq with rfl | rfl
                         · exact h4
                         · exact h5
  have hn : c ≠ '\n' := fun h => absurd (h ▸ h1) (by decide)
  have hr : c ≠ '\r' := fun h => absurd (h ▸ h1) (by decide)
  have ht : c ≠ '\t' := fun h => absurd (h ▸ h1) (by decide)
  have hlow : ¬ (c.toNat < 32 ∨ c.toNat = 127) := by omega
  simp [pyEscapeChar, h3, hnq, hn, hr, ht, hlow]

theorem joinEsc_cons (q c : Char) (e : List Char) :
    joinEsc q (c :: e) = pyEscapeChar q c ++ joinEsc q e := by
  simp [joinEsc]

theorem joinEsc_append (q : Char) (a b : List Char) :
    joinEsc q (a ++ b) = joinEsc q a ++ joinEsc q b := by
  simp [joinEsc]

theorem joinEsc_plain {q : Char} (hq : q = '\'' ∨ q = '"') :
    ∀ {t : List Char}, (∀ c ∈ t, PlainChar c) → joinEsc q t = t := by
  intro t
  induction t with
  | nil => intro _; rfl
  | cons c t' ih =>
    intro h
    rw [joinEsc_cons, plain_escape hq (h c (by simp)),
      ih (fun x hx => h x (by simp [hx]))]
    rfl

theorem pre_joinEsc_elim {q : Char} (hq : q = '\'' ∨ q = '"') :
    ∀ (e t : List Char), t ≠ [] → (∀ c ∈ t, PlainChar c) →
      Pre t (joinEsc q e) → Pre t e := by
  intro e
  induction e with
  | nil =>
    intro t hne _ h
    exact absurd (pre_nil_elim h) hne
  | cons c e' ih =>
    intro t hne hp h
    rw [joinEsc_cons] at h
    have hbs : ∀ bs : List Char, pyEscapeChar q c = '\\' :: bs → False := by
      intro bs hsc
      rw [hsc] at h
      rcases pre_append_elim h with hpre | ⟨t2, rfl, _⟩
      · rcases pre_cons_iff.mp hpre with rfl | ⟨t', rfl, _⟩
        · exact hne rfl
        · exact (hp '\\' (by simp)).2.2.1 rfl
      · exact (hp '\\' (by simp)).2.2.1 rfl
    rcases escape_block q c hq with hesc | ⟨bs, hesc, _⟩
    · rw [hesc] at h
      rcases pre_append_elim h with hpre | ⟨t2, rfl, ht2⟩
      · rcases pre_singleton_elim hpre with rfl | rfl
        · exact absurd rfl hne
        · exact ⟨e', rfl⟩
      · by_cases h2 : t2 = []
        · subst h2
          exact ⟨e', by simp⟩
        · obtain ⟨r, rfl⟩ := ih t2 h2 (fun x hx => hp x (by simp [hx])) ht2
          exact ⟨r, by simp⟩
    · exact absurd hesc (fun hsc => hbs bs hsc)

theorem sub_joinEsc_elim {q : Char} (hq : q = '\'' ∨ q = '"') :
    ∀ (e t : List Char), t ≠ [] → (∀ c ∈ t, PlainChar c) → headNotEscTail t →
      Sub t (joinEsc q e) → Sub t e := by
  intro e
  induction e with
  | nil =>
    intro t hne _ _ h
    exact absurd (sub_nil_elim h) hne
  | cons c e' ih =>
    intro t hne hp hh h
    rw [joinEsc_cons] at h
    rcases escape_block q c hq with hesc | ⟨bs, hesc, hbs⟩
    · rw [hesc] at h
      rcases sub_append_elim h with h1 | h1 | ⟨t1, t2, rfl, ht1, ht2, hsuf, hpre⟩
      · rcases sub_singleton_elim h1 with rfl | rfl
        · exact absurd rfl hne
        · exact ⟨[], e', rfl⟩
      · obtain ⟨l, r, hr⟩ := ih t hne hp hh h1
        exact ⟨c :: l, r, by simp [hr]⟩
      · rcases suf_singleton_elim hsuf with rfl | rfl
        · exact absurd rfl ht1
        · obtain ⟨r, rfl⟩ := pre_joinEsc_elim hq e' t2 ht2
            (fun x hx => hp x (by simp [hx])) hpre
          exact ⟨[], r, by simp⟩
    · rw [hesc] at h
      rcases sub_append_elim h with h1 | h1 | ⟨t1, t2, rfl, ht1, ht2, hsuf, hpre⟩
      · rcases sub_cons_iff.mp h1 with hpre | hsub
        · rcases pre_cons_iff.mp hpre with rfl | ⟨t', rfl, _⟩
          · exact absurd rfl hne
          · exact absurd rfl ((hp '\\' (by simp)).2.2.1)
        · cases t with
          | nil => exact absurd rfl hne
          | cons x t'' =>
            exact absurd (hbs x (mem_of_sub hsub (by simp))) (hh x (by simp))
      · obtain ⟨l, r, hr⟩ := ih t hne hp hh h1
        exact ⟨c :: l, r, by simp [hr]⟩
      · rcases suf_cons_elim hsuf with rfl | hsuf'
        · exact absurd rfl ((hp '\\' (by simp)).2.2.1)
        · cases t1 with
          | nil => exact absurd rfl ht1
          | cons x t1' =>
            obtain ⟨l, hl⟩ := hsuf'
            have hxbs : x ∈ bs := by
              rw [hl]
              simp
            exact absurd (hbs x hxbs) (hh x (by simp))

theorem sub_joinEsc_intro {q : Char} (hq : q = '\'' ∨ q = '"') {e t : List Char}
    (hp : ∀ c ∈ t, PlainChar c) (h : Sub t e) : Sub t (joinEsc q e) := by
  obtain ⟨l, r, rfl⟩ := h
  rw [joinEsc_append, joinEsc_append, joinEsc_plain hq hp]
  exact ⟨joinEsc q l, joinEsc q r, rfl⟩

/-! ## List-display-level lemmas for the prompt detector -/

theorem pyQuote_cases (e : List Char) : pyQuote e = '\'' ∨ pyQuote e = '"' := by
  unfold pyQuote
  split_ifs with h
  · exact Or.inr rfl
  · exact Or.inl rfl

theorem plain_no_quote {t : List Char} (hp : ∀ c ∈ t, PlainChar c) :
    ∀ q, (q = '\'' ∨ q = '"') → q ∉ t := by
  intro q hq hmem
  rcases hq with rfl | rfl
  · exact absurd rfl ((hp _ hmem).2.2.2.1)
  · exact absurd rfl ((hp _ hmem).2.2.2.2.1)

theorem reprStr_endsWith (e : List Char) :
    EndsWith (pyQuote e) (pyReprStr e) :=
  ⟨pyQuote e :: joinEsc (pyQuote e) e, rfl⟩

theorem joinSep_cons_cons (a b : List Char) (L : List (List Char)) :
    joinSep (a :: b :: L) = a ++ (sepLC ++ joinSep (b :: L)) := by
  simp [joinSep]

theorem sub_reprStr_elim {t : List Char} (hne : t ≠ [])
    (hp : ∀ c ∈ t, PlainChar c) (hh : headNotEscTail t) (e : List Char)
    (h : Sub t (pyReprStr e)) : Sub t e := by
  have hq := pyQuote_cases e
  have hqt : pyQuote e ∉ t := plain_no_quote hp _ hq
  rw [pyReprStr] at h
  rcases sub_cons_iff.mp h with hpre | hsub
  · rcases pre_cons_iff.mp hpre with rfl | ⟨t', rfl, _⟩
    · exact absurd rfl hne
    · exact absurd (List.mem_cons_self _ _) hqt
  · rcases sub_append_elim hsub with h1 | h1 | ⟨t1, t2, rfl, ht1, ht2, _, hpre2⟩
    · exact sub_joinEsc_elim hq e t hne hp hh h1
    · rcases sub_singleton_elim h1 with rfl | rfl
      · exact absurd rfl hne
      · exact absurd (by simp) hqt
    · rcases pre_singleton_elim hpre2 with rfl | rfl
      · exact absurd rfl ht2
      · exact absurd (by simp) hqt

theorem sub_reprStr_intro {t e : List Char} (hp : ∀ c ∈ t, PlainChar c)
    (h : Sub t e) : Sub t (pyReprStr e) := by
  obtain ⟨l, r, hr⟩ := sub_joinEsc_intro (pyQuote_cases e) hp h
  exact ⟨pyQuote e :: l, r ++ [pyQuote e], by simp [pyReprStr, hr, List.append_assoc]⟩

theorem joinSep_reprs_head : ∀ (l : List (List Char)), l ≠ [] →
    ∃ q, (q = '\'' ∨ q = '"') ∧ ∃ u, joinSep (l.map pyReprStr) = q :: u := by
  intro l hl
  cases l with
  | nil => exact absurd rfl hl
  | cons e l' =>
    refine ⟨pyQuote e, pyQuote_cases e, ?_⟩
    cases l' with
    | nil => exact ⟨joinEsc (pyQuote e) e ++ [pyQuote e], rfl⟩
    | cons e2 rest =>
      refine ⟨(joinEsc (pyQuote e) e ++ [pyQuote e]) ++
        (sepLC ++ joinSep ((e2 :: rest).map pyReprStr)), ?_⟩
      rw [List.map_cons, List.map_cons, joinSep_cons_cons]
      simp [pyReprStr]

theorem joinSep_reprs_endsWith : ∀ (l : List (List Char)), l ≠ [] →
    ∃ q, (q = '\'' ∨ q = '"') ∧ EndsWith q (joinSep (l.map pyReprStr)) := by
  intro l
  induction l with
  | nil => intro h; exact absurd rfl h
  | cons e l' ih =>
    intro _
    cases l' with
    | nil => exact ⟨pyQuote e, pyQuote_cases e, reprStr_endsWith e⟩
    | cons e2 rest =>
      obtain ⟨q, hq, hw⟩ := ih (by simp)
      refine ⟨q, hq, ?_⟩
      show EndsWith q (joinSep (pyReprStr e :: (e2 :: rest).map pyReprStr))
      rw [List.map_cons, joinSep_cons_cons]
      exact endsWith_append _ (endsWith_append _ hw)

theorem mem_joinSep : ∀ (rs : List (List Char)) (r : List Char), r ∈ rs →
    ∃ u v, joinSep rs = u ++ r ++ v := by
  intro rs
  induction rs with
  | nil => intro r h; cases h
  | cons a bs ih =>
    intro r hr
    rcases List.mem_cons.mp hr with rfl | hmem
    · cases bs with
      | nil => exact ⟨[], [], by simp [joinSep]⟩
      | cons b bs' =>
        exact ⟨[], sepLC ++ joinSep (b :: bs'), by simp [joinSep_cons_cons]⟩
    · cases bs with
      | nil => cases hmem
      | cons b bs' =>
        obtain ⟨u, v, huv⟩ := ih r hmem
        refine ⟨a ++ sepLC ++ u, v, ?_⟩
        rw [joinSep_cons_cons, huv]
        simp [List.append_assoc]

theorem sub_joinSep_elim : ∀ (l : List (List Char)) (t : List Char),
    t ≠ [] → 2 ≤ t.length → (∀ c ∈ t, PlainChar c) → headNotEscTail t →
    Sub t (joinSep (l.map pyReprStr)) → ∃ e ∈ l, Sub t e := by
  intro l
  induction l with
  | nil =>
    intro t hne _ _ _ h
    simp only [List.map_nil, joinSep] at h
    exact absurd (sub_nil_elim h) hne
  | cons e l' ih =>
    intro t hne hlen hp hh h
    cases l' with
    | nil =>
      simp only [List.map_cons, List.map_nil, joinSep] at h
      exact ⟨e, by simp, sub_reprStr_elim hne hp hh e h⟩
    | cons e2 rest =>
      rw [List.map_cons, List.map_cons, joinSep_cons_cons] at h
      rcases sub_append_elim h with h1 | h1 | ⟨t1, t2, rfl, ht1, ht2, hsuf, _⟩
      · exact ⟨e, by simp, sub_reprStr_elim hne hp hh e h1⟩
      · rcases sub_append_elim h1 with h2 | h2 | ⟨t1, t2, rfl, ht1, ht2, hsuf, hpre⟩
        · rcases sub_pair_elim h2 with rfl | rfl | rfl | rfl
          · exact absurd rfl hne
          · exact absurd hlen (by decide)
          · exact absurd hlen (by decide)
          · exact absurd rfl ((hp ',' (by simp)).2.2.2.2.2)
        · obtain ⟨e', hm, hs⟩ := ih t hne hlen hp hh
            (by simpa only [List.map_cons] using h2)
          exact ⟨e', List.mem_cons_of_mem _ hm, hs⟩
        · rcases suf_pair_elim hsuf with rfl | rfl | rfl
          · exact absurd rfl ht1
          · obtain ⟨q, hq, u, hu⟩ := joinSep_reprs_head (e2 :: rest) (by simp)
            rw [List.map_cons] at hu
            rw [hu] at hpre
            cases t2 with
            | nil => exact absurd rfl ht2
            | cons x t2' =>
              obtain ⟨r, hr⟩ := hpre
              rw [List.cons_append] at hr
              injection hr with hx _
              refine absurd ?_ (plain_no_quote hp q hq)
              rw [hx]
              simp
          · exact absurd rfl ((hp ',' (by simp)).2.2.2.2.2)
      · have hw := reprStr_endsWith e
        have hmem := suf_endsWith hsuf ht1 hw
        exact absurd (List.mem_append_left _ hmem)
          (plain_no_quote hp _ (pyQuote_cases e))

theorem sub_pyStrList_elim {t : List Char} (hne : t ≠ []) (hlen : 2 ≤ t.length)
    (hp : ∀ c ∈ t, PlainChar c) (hh : headNotEscTail t) (hbr : t ≠ ['[', ']'])
    (l : List (List Char)) (h : Sub t (pyStrList l)) : ∃ e ∈ l, Sub t e := by
  rw [pyStrList] at h
  rcases sub_cons_iff.mp h with hpre | hsub
  · rcases pre_cons_iff.mp hpre with rfl | ⟨t', rfl, ht'⟩
    · exact absurd rfl hne
    · cases l with
      | nil =>
        simp only [List.map_nil, joinSep, List.nil_append] at ht'
        rcases pre_singleton_elim ht' with rfl | rfl
        · exact absurd hlen (by decide)
        · exact absurd rfl hbr
      | cons e1 l1 =>
        obtain ⟨q, hq, u, hu⟩ := joinSep_reprs_head (e1 :: l1) (by simp)
        rw [hu] at ht'
        rcases pre_append_elim ht' with h1 | ⟨t2, rfl, _⟩
        · cases t' with
          | nil => exact absurd hlen (by decide)
          | cons x t'' =>
            obtain ⟨r, hr⟩ := h1
            rw [List.cons_append] at hr
            injection hr with hx _
            refine absurd ?_ (plain_no_quote hp q hq)
            rw [hx]
            simp
        · exact absurd (by simp) (plain_no_quote hp q hq)
  · rcases sub_append_elim hsub with h1 | h1 | ⟨t1, t2, rfl, ht1, ht2, hsuf, _⟩
    · cases l with
      | nil =>
        simp only [List.map_nil, joinSep] at h1
        exact absurd (sub_nil_elim h1) hne
      | cons e1 l1 => exact sub_joinSep_elim (e1 :: l1) t hne hlen hp hh h1
    · rcases sub_singleton_elim h1 with rfl | rfl
      · exact absurd rfl hne
      · exact absurd hlen (by decide)
    · cases l with
      | nil =>
        simp only [List.map_nil, joinSep] at hsuf
        exact absurd (suf_nil_elim hsuf) ht1
      | cons e1 l1 =>
        obtain ⟨q, hq, hw⟩ := joinSep_reprs_endsWith (e1 :: l1) (by simp)
        have hmem := suf_endsWith hsuf ht1 hw
        exact absurd (List.mem_append_left _ hmem) (plain_no_quote hp q hq)

theorem sub_pyStrList_intro {t e : List Char} {l : List (List Char)}
    (he : e ∈ l) (hp : ∀ c ∈ t, PlainChar c) (hs : Sub t e) :
    Sub t (pyStrList l) := by
  have h1 := sub_reprStr_intro hp hs
  obtain ⟨u, v, huv⟩ :=
    mem_joinSep (l.map pyReprStr) (pyReprStr e) (List.mem_map_of_mem _ he)
  obtain ⟨l0, r0, hr⟩ := sub_trans h1 ⟨u, v, huv⟩
  exact ⟨'[' :: l0, r0 ++ [']'], by simp [pyStrList, hr, List.append_assoc]⟩

/-! ## C2: the prompt detector -/

/-- C2: the interactive-loop prompt check returns true exactly when one of
the three fixed case-sensitive substrings occurs verbatim inside one of the
last five buffered output lines, and it returns false on an empty buffer.
The check inspects the Python string display `str(pacman_output[-5:])`; the
quote delimiters, `", "` separators, brackets, and backslash escapes that
the display inserts can neither hide an occurrence of a prompt substring nor
fabricate one, because each substring consists of plain printable ASCII,
contains no quote, comma or backslash, does not begin with an
escape-continuation character, and is none of `"["`, `"]"`, `"[]"`.  The
check is a pure function of those lines (installer.py:252-258). -/
theorem prompt_detector_iff :
    (∀ pacman_output : List (List Char),
      (promptDetected pacman_output = true ↔
        ∃ t ∈ prompt_targets, ∃ line ∈ lastN 5 pacman_output, Sub t line)) ∧
    promptDetected [] = false := by
  constructor
  · intro buf
    simp only [promptDetected, Bool.or_eq_true, containsSub_iff]
    constructor
    · intro h
      rcases h with (h | h) | h
      · obtain ⟨line, hline, hsub⟩ := sub_pyStrList_elim (by decide) (by decide)
          (by decide) (by decide) (by decide) _ h
        exact ⟨"Proceed with installation".toList, by simp [prompt_targets],
          line, hline, hsub⟩
      · obtain ⟨line, hline, hsub⟩ := sub_pyStrList_elim (by decide) (by decide)
          (by decide) (by decide) (by decide) _ h
        exact ⟨"Continue?".toList, by simp [prompt_targets], line, hline, hsub⟩
      · obtain ⟨line, hline, hsub⟩ := sub_pyStrList_elim (by decide) (by decide)
          (by decide) (by decide) (by decide) _ h
        exact ⟨"[Y/n]".toList, by simp [prompt_targets], line, hline, hsub⟩
    · rintro ⟨t, ht, line, hline, hsub⟩
      simp only [prompt_targets, List.mem_cons, List.mem_singleton,
        List.not_mem_nil, or_false] at ht
      rcases ht with rfl | rfl | rfl
      · exact Or.inl (Or.inl (sub_pyStrList_intro hline (by decide) hsub))
      · exact Or.inl (Or.inr (sub_pyStrList_intro hline (by decide) hsub))
      · exact Or.inr (sub_pyStrList_intro hline (by decide) hsub)
  · decide

/-! ## C1: bounded buffers -/

/-- C1 counterexample: the buffers are not rings.  After 19 appended
non-blank lines the output buffer holds 19 entries, above the 18-line window
the renderer is limited to; after 11 log appends the log holds 11 entries,
above its 10-entry window.  Nothing is ever evicted. -/
theorem c1_counterexample_buffers_exceed_capacity :
    ((List.replicate 19 (['x'] : List Char)).foldl add_pacman_output []).length = 19 ∧
    ¬ ((List.replicate 19 (['x'] : List Char)).foldl add_pacman_output []).length ≤ 18 ∧
    ((List.replicate 11 "m").foldl (fun ls m => add_log ls m "INFO") []).length = 11 ∧
    ¬ ((List.replicate 11 "m").foldl (fun ls m => add_log ls m "INFO") []).length ≤ 10 := by
  refine ⟨by decide, by decide, ?_, ?_⟩ <;> decide

/-- C1 (amended): `custom_logs` and `pacman_output` are append-only and
unbounded — an append never evicts, the old buffer stays a prefix — while
the renderer displays only the last 18 output lines and the last 10 log
entries, and those displayed windows never exceed their sizes and retain the
most recently appended entries in their original order (each window is a
final segment of its buffer). -/
theorem c1_amended_display_windows_bounded :
    ∀ (buf : List (List Char)) (line : List Char) (logs : List LogEntry)
      (msg ty : String),
      (∃ ext, add_pacman_output buf line = buf ++ ext) ∧
      add_log logs msg ty = logs ++ [⟨ty, msg⟩] ∧
      (recent_output buf).length ≤ 18 ∧
      (∃ pre, buf = pre ++ recent_output buf) ∧
      (recent_logs logs).length ≤ 10 ∧
      (∃ pre, logs = pre ++ recent_logs logs) := by
  intro buf line logs msg ty
  refine ⟨?_, rfl, ?_, ?_, ?_, ?_⟩
  · unfold add_pacman_output
    split
    · exact ⟨[], by simp⟩
    · exact ⟨[pyRstrip line], rfl⟩
  · simp only [recent_output, lastN, List.length_drop]
    omega
  · exact ⟨buf.take (buf.length - 18), (List.take_append_drop _ _).symm⟩
  · simp only [recent_logs, lastN, List.length_drop]
    omega
  · exact ⟨logs.take (logs.length - 10), (List.take_append_drop _ _).symm⟩

/-! ## C3: exact bytes written on confirmation -/

/-- C3: in interactive mode, once a confirmation prompt is detected, an
empty user line causes exactly `"Y\n"` to be written to the child stdin
followed immediately by a flush, and a non-empty line `s` causes exactly
`s ++ "\n"` followed by the flush (installer.py:259-266). -/
theorem confirmation_reply_exact_bytes :
    ∀ (buf : List (List Char)) (s : List Char), promptDetected buf = true →
      monitor_step_events buf [] = [StdinEvent.write ['Y', '\n'], StdinEvent.flush] ∧
      (s ≠ [] →
        monitor_step_events buf s = [StdinEvent.write (s ++ ['\n']), StdinEvent.flush]) := by
  intro buf s h
  constructor
  · simp [monitor_step_events, h]
  · intro hs
    simp [monitor_step_events, h, hs]

/-- Witness for C3 at a concrete buffer containing a `[Y/n]` line. -/
theorem confirmation_reply_exact_bytes_witness :
    monitor_step_events [['[', 'Y', '/', 'n', ']']] [] =
      [StdinEvent.write ['Y', '\n'], StdinEvent.flush] ∧
    monitor_step_events [['[', 'Y', '/', 'n', ']']] ['n'] =
      [StdinEvent.write ['n', '\n'], StdinEvent.flush] := by
  have h1 := confirmation_reply_exact_bytes [['[', 'Y', '/', 'n', ']']] ['n'] (by decide)
  exact ⟨h1.1, h1.2 (by decide)⟩

/-! ## C4: the character-handling state machine -/

/-- C4: from an empty buffer, `"hello\r"` completes the line `"hello"` and
`"hi",BS,"\r"` completes `"h"`; `0x03` raises `KeyboardInterrupt` whatever
the state; CR/LF completes and clears the buffer and enqueues the line;
backspace/delete removes the last buffered character if present; printable
characters (code ≥ 32, with 0x7f claimed by the backspace clause) are
appended; all other control codes are ignored (installer.py:155-188). -/
theorem input_state_machine_spec :
    (feed_chars initial_wait_state "hello\r".toList =
      .ok ⟨[], false, [['h', 'e', 'l', 'l', 'o']]⟩) ∧
    (wait_result ⟨[], false, [['h', 'e', 'l', 'l', 'o']]⟩ = ['h', 'e', 'l', 'l', 'o']) ∧
    (feed_chars initial_wait_state ['h', 'i', '\x7f', '\r'] = .ok ⟨[], false, [['h']]⟩) ∧
    (∀ st : InputState, handle_input st '\x03' = .error ()) ∧
    (∀ (st : InputState) (c : Char), c = '\r' ∨ c = '\n' →
      handle_input st c = .ok (⟨[], false, st.input_queue ++ [st.input_buffer]⟩, true)) ∧
    (∀ (st : InputState) (c : Char), c = '\x7f' ∨ c = '\x08' →
      handle_input st c =
        .ok (⟨st.input_buffer.dropLast, st.waiting_for_input, st.input_queue⟩, false)) ∧
    (∀ (st : InputState) (c : Char), 32 ≤ c.toNat → c ≠ '\x7f' →
      handle_input st c =
        .ok (⟨st.input_buffer ++ [c], st.waiting_for_input, st.input_queue⟩, false)) ∧
    (∀ (st : InputState) (c : Char), c.toNat < 32 →
      c ≠ '\r' → c ≠ '\n' → c ≠ '\x08' → c ≠ '\x03' →
      handle_input st c = .ok (st, false)) := by
  refine ⟨by rfl, by decide, by rfl, ?_, ?_, ?_, ?_, ?_⟩
  · intro st
    simp [handle_input]
  · rintro st c (rfl | rfl) <;> simp [handle_input]
  · rintro st c (rfl | rfl) <;>
      · simp only [handle_input]
        norm_num
        by_cases hb : st.input_buffer = [] <;> simp [hb]
  · intro st c h hx7f
    have h1 : c ≠ '\r' := fun hc => absurd (hc ▸ h) (by decide)
    have h2 : c ≠ '\n' := fun hc => absurd (hc ▸ h) (by decide)
    have h3 : c ≠ '\x08' := fun hc => absurd (hc ▸ h) (by decide)
    have h4 : c ≠ '\x03' := fun hc => absurd (hc ▸ h) (by decide)
    simp [handle_input, h1, h2, h3, h4, hx7f, h]
  · intro st c h h1 h2 h3 h4
    have h5 : c ≠ '\x7f' := fun hc => absurd (hc ▸ h) (by decide)
    have h6 : ¬ 32 ≤ c.toNat := by omega
    simp [handle_input, h1, h2, h3, h4, h5, h6]

/-- Witness for C4 at concrete states and characters. -/
theorem input_state_machine_spec_witness :
    handle_input ⟨['a'], true, []⟩ '\x03' = .error () ∧
    handle_input ⟨['a'], true, []⟩ '\r' = .ok (⟨[], false, [['a']]⟩, true) ∧
    handle_input ⟨['a'], true, []⟩ '\x7f' = .ok (⟨[], true, []⟩, false) ∧
    handle_input ⟨['a'], true, []⟩ 'b' = .ok (⟨['a', 'b'], true, []⟩, false) ∧
    handle_input ⟨['a'], true, []⟩ '\x01' = .ok (⟨['a'], true, []⟩, false) := by
  have h := input_state_machine_spec
  refine ⟨h.2.2.2.1 ⟨['a'], true, []⟩, ?_, ?_, ?_, ?_⟩
  · exact h.2.2.2.2.1 ⟨['a'], true, []⟩ '\r' (Or.inl rfl)
  · exact h.2.2.2.2.2.1 ⟨['a'], true, []⟩ '\x7f' (Or.inl rfl)
  · exact h.2.2.2.2.2.2.1 ⟨['a'], true, []⟩ 'b' (by decide) (by decide)
  · exact h.2.2.2.2.2.2.2 ⟨['a'], true, []⟩ '\x01' (by decide) (by decide) (by decide)
      (by decide) (by decide)

/-! ## C7: terminal restoration on every exit path -/

/-- C7: on every exit of `run_installer` — normal completion, interrupt, or
any exception from the body — the `finally` block runs `restore_terminal`
as the last action; after it the terminal mode equals the pre-run mode (from
a fresh state, whose `old_terminal_settings` is `None`); and
`restore_terminal` is idempotent: the second call changes nothing
(installer.py:143-146, 374-415). -/
theorem terminal_restore_on_every_exit :
    (∀ (ts : TerminalState) (isatty : Bool) (raw : Nat) (body : BodyOutcome)
      (hp : Bool),
      ((run_installer ts isatty raw body hp).2).getLast? = some RunEvent.restoreTerminal) ∧
    (∀ (ts : TerminalState) (raw : Nat) (body : BodyOutcome) (hp : Bool),
      ts.old_terminal_settings = none →
      ((run_installer ts true raw body hp).1).mode = ts.mode ∧
      (run_installer ts false raw body hp).1 = ts) ∧
    (∀ ts : TerminalState, restore_terminal (restore_terminal ts) = restore_terminal ts) := by
  refine ⟨?_, ?_, ?_⟩
  · intro ts isatty raw body hp
    cases body <;> cases hp <;> rfl
  · intro ts raw body hp h
    constructor
    · rfl
    · simp [run_installer, setup_terminal, restore_terminal, h]
  · intro ts
    rcases ts with ⟨m, o⟩
    cases o <;> rfl

/-- Witness for C7 at a concrete fresh terminal state. -/
theorem terminal_restore_on_every_exit_witness :
    ((run_installer ⟨5, none⟩ true 0 BodyOutcome.keyboardInterrupt true).1).mode = 5 ∧
    ((run_installer ⟨5, none⟩ true 0 BodyOutcome.keyboardInterrupt true).2).getLast? =
      some RunEvent.restoreTerminal := by
  have h := terminal_restore_on_every_exit
  exact ⟨(h.2.1 ⟨5, none⟩ 0 BodyOutcome.keyboardInterrupt true rfl).1,
         h.1 ⟨5, none⟩ true 0 BodyOutcome.keyboardInterrupt true⟩

/-! ## C8: behaviour without a TTY -/

theorem wait_poll_iter_no_tty (stream : Nat → Option Char) :
    ∀ n, wait_poll_iter false stream n = .ok initial_wait_state := by
  intro n
  induction n with
  | zero => rfl
  | succ n ih => simp [wait_poll_iter, ih, get_char, initial_wait_state]

/-- C8 counterexample: with no TTY there is no fallback to non-interactive
installation — `wait_for_input` polls forever.  Even with input available at
every tick, after any number of loop iterations the wait state is unchanged
and `waiting_for_input` never becomes false: the stop condition of the wait
loop is unreachable. -/
theorem c8_counterexample_no_tty_wait_never_ends :
    ¬ ∃ (n : Nat) (st : InputState),
        wait_poll_iter false (fun _ => some 'Y') n = .ok st ∧
        st.waiting_for_input = false := by
  rintro ⟨n, st, h1, h2⟩
  rw [wait_poll_iter_no_tty] at h1
  injection h1 with h
  subst h
  exact absurd h2 (by decide)

/-- C8 (amended): when the terminal is not a TTY the system does disable raw
capture — `setup_terminal` leaves the settings untouched and `get_char`
always returns none — but it does not fall back to non-interactive
installation: every `wait_for_input` poll loop leaves the state exactly at
its initial value (still waiting, empty buffer) after any number of
iterations, so the wait never completes and blocks the run at the first
input request (installer.py:148-153, 173-188, 384). -/
theorem c8_amended_no_tty_disables_capture_only :
    (∀ (raw : Nat) (ts : TerminalState), setup_terminal false raw ts = ts) ∧
    (∀ avail : Option Char, get_char false avail = none) ∧
    (∀ (stream : Nat → Option Char) (n : Nat),
      ∃ st, wait_poll_iter false stream n = .ok st ∧
        st.waiting_for_input = true ∧ st.input_buffer = []) := by
  refine ⟨fun raw ts => rfl, fun avail => rfl, fun stream n => ?_⟩
  exact ⟨initial_wait_state, wait_poll_iter_no_tty stream n, rfl, rfl⟩

/-! ## C9: argument vectors -/

/-- C9 counterexample: for the primary tool the spawned vector is prefixed
by the privilege-elevation wrapper, so it does not have the claimed
`[tool, subcommand_flag, (confirmation_flag)?, package_name]` shape: no
choice of `tool`/`subcommand`/`confirmation` flags matches both the
interactive vector `["sudo", "pacman", "-S", "vim"]` (four elements, none a
confirmation flag) and the non-interactive five-element vector. -/
theorem c9_counterexample_pacman_vector_shape :
    ¬ ∃ tool subcmd conf : String,
        install_cmd_interactive false "vim" = [tool, subcmd, "vim"] ∧
        install_cmd_noconfirm false "vim" = [tool, subcmd, conf, "vim"] := by
  rintro ⟨tool, subcmd, conf, h1, _⟩
  have hlen := congrArg List.length h1
  simp [install_cmd_interactive] at hlen

/-- C9 (amended): the alternate helper spawns exactly
`["yay", "-S", (--noconfirm)?, pkg]` — the claimed shape, with `yay` first —
while the primary tool spawns the same shape prefixed by `sudo`:
`["sudo", "pacman", "-S", (--noconfirm)?, pkg]`.  The skip-confirmation flag
appears exactly in the non-interactive vectors, and the non-interactive
install performs no prompt polling and never touches the child stdin
(installer.py:221-230, 296-300). -/
theorem c9_amended_command_vectors :
    ∀ pkg : String,
      install_cmd_interactive true pkg = ["yay", "-S", pkg] ∧
      install_cmd_noconfirm true pkg = ["yay", "-S", "--noconfirm", pkg] ∧
      install_cmd_interactive false pkg = ["sudo", "pacman", "-S", pkg] ∧
      install_cmd_noconfirm false pkg = ["sudo", "pacman", "-S", "--noconfirm", pkg] ∧
      (∀ uy : Bool, ∀ e ∈ install_package_noconfirm_events uy pkg,
        (∀ s, e ≠ ProcEvent.stdinWrite s) ∧ e ≠ ProcEvent.stdinFlush ∧
        (∀ b, e ≠ ProcEvent.promptCheck b)) := by
  intro pkg
  refine ⟨rfl, rfl, rfl, rfl, ?_⟩
  intro uy e he
  simp only [install_package_noconfirm_events, List.mem_cons, List.mem_singleton,
    List.not_mem_nil] at he
  rcases he with rfl | rfl | h
  · simp
  · simp
  · simp at h

/-! ## C5 and C6: the batch loop -/

theorem install_package_step_ok (st : InstallerState) (pkg : String)
    {o : PkgOutcome} (h : o ≠ PkgOutcome.userAbort) :
    ∃ st' b, install_package_step st pkg o = .ok (st', b) ∧
      (b = true ↔ o = PkgOutcome.exitCode 0) := by
  cases o with
  | exitCode c =>
    by_cases hc : c = 0
    · subst hc
      refine ⟨{ st with
          current_package := pkg,
          installation_status := "✓ " ++ pkg ++ " installed",
          custom_logs := add_log
            (add_log st.custom_logs ("Starting installation of " ++ pkg) "INFO")
            ("✓ Successfully installed " ++ pkg) "SUCCESS" }, true, rfl, by simp⟩
    · refine ⟨{ st with
          current_package := pkg,
          installation_status := "✗ " ++ pkg ++ " failed",
          custom_logs := add_log
            (add_log st.custom_logs ("Starting installation of " ++ pkg) "INFO")
            ("✗ Failed to install " ++ pkg ++ " (exit code: " ++ toString c ++ ")")
            "ERROR" }, false, ?_, by simp [hc]⟩
      simp only [install_package_step, if_neg hc]
  | exn m =>
    refine ⟨{ st with
        current_package := pkg,
        installation_status := "✗ " ++ pkg ++ " error",
        custom_logs := add_log
          (add_log st.custom_logs ("Starting installation of " ++ pkg) "INFO")
          ("✗ Exception installing " ++ pkg ++ ": " ++ m) "ERROR" }, false, rfl, by simp⟩
  | userAbort => exact absurd rfl h

theorem install_packages_loop_ok (outcome : String → PkgOutcome) :
    ∀ (pkgs : List String) (st : InstallerState) (i s f : Nat),
      (∀ p ∈ pkgs, outcome p ≠ PkgOutcome.userAbort) →
      ∃ st' s' f', install_packages_loop outcome st pkgs i s f = .ok (st', s', f') ∧
        s' = s + pkgs.countP (fun p => outcome p == PkgOutcome.exitCode 0) ∧
        s' + f' = s + f + pkgs.length := by
  intro pkgs
  induction pkgs with
  | nil =>
    intro st i s f _
    exact ⟨st, s, f, by simp [install_packages_loop], by simp, by simp⟩
  | cons p rest ih =>
    intro st i s f h
    have hp := h p (List.mem_cons_self _ _)
    obtain ⟨st', b, hstep, hb⟩ :=
      install_package_step_ok { st with progress_current := i } p hp
    cases b with
    | true =>
      have hsucc : outcome p = PkgOutcome.exitCode 0 := hb.mp rfl
      obtain ⟨st'', s'', f'', hrec, h1, h2⟩ :=
        ih { st' with progress_current := i + 1 } (i + 1) (s + 1) f
          (fun q hq => h q (List.mem_cons_of_mem _ hq))
      refine ⟨st'', s'', f'', ?_, ?_, ?_⟩
      · simp only [install_packages_loop, hstep]
        simpa using hrec
      · simp only [List.countP_cons, hsucc]
        simp
        omega
      · simp only [List.length_cons]
        omega
    | false =>
      have hfail : ¬ outcome p = PkgOutcome.exitCode 0 :=
        fun he => by simpa using hb.mpr he
      obtain ⟨st'', s'', f'', hrec, h1, h2⟩ :=
        ih { st' with progress_current := i + 1 } (i + 1) s (f + 1)
          (fun q hq => h q (List.mem_cons_of_mem _ hq))
      refine ⟨st'', s'', f'', ?_, ?_, ?_⟩
      · simp only [install_packages_loop, hstep]
        simpa using hrec
      · simp only [List.countP_cons]
        simp [hfail]
        omega
      · simp only [List.length_cons]
        omega

/-- C5: for every package list of length `N` whose run completes (no user
interrupt), `successful + failed = N`, each package counted successful
exactly when its install returned success (exit code 0); the final status
line and the final summary log entry report these counts
(installer.py:339-372). -/
theorem install_summary_counts :
    ∀ (st : InstallerState) (pkgs : List String) (outcome : String → PkgOutcome),
      (∀ p ∈ pkgs, outcome p ≠ PkgOutcome.userAbort) →
      ∃ st' s f, install_packages st pkgs outcome = .ok (st', s, f) ∧
        s + f = pkgs.length ∧
        s = pkgs.countP (fun p => outcome p == PkgOutcome.exitCode 0) ∧
        st'.installation_status =
          "Complete: " ++ toString s ++ " successful, " ++ toString f ++ " failed" ∧
        st'.custom_logs.getLast? = some ⟨"INFO",
          "Installation complete: " ++ toString s ++ "/" ++ toString pkgs.length ++
            " packages installed"⟩ := by
  intro st pkgs outcome h
  obtain ⟨st1, s, f, hloop, h1, h2⟩ := install_packages_loop_ok outcome pkgs
    { st with progress_total := pkgs.length, progress_current := 0 } 0 0 0 h
  refine ⟨{ st1 with
      current_package := "",
      installation_status :=
        "Complete: " ++ toString s ++ " successful, " ++ toString f ++ " failed",
      custom_logs := add_log st1.custom_logs
        ("Installation complete: " ++ toString s ++ "/" ++ toString pkgs.length ++
          " packages installed") "INFO" }, s, f, ?_, by omega, by omega, rfl, ?_⟩
  · simp only [install_packages, hloop]
  · simp [add_log, List.getLast?_concat]

/-- Witness for C5: a two-package batch, one success and one failure. -/
theorem install_summary_counts_witness :
    ∃ st' s f,
      install_packages ⟨"", "Ready", [], 0, 0⟩ ["a", "b"]
        (fun p => if p = "a" then PkgOutcome.exitCode 0 else PkgOutcome.exitCode 1) =
        .ok (st', s, f) ∧
      s + f = 2 ∧
      s = (["a", "b"].countP (fun p =>
        (if p = "a" then PkgOutcome.exitCode 0 else PkgOutcome.exitCode 1) ==
          PkgOutcome.exitCode 0)) ∧
      st'.installation_status =
        "Complete: " ++ toString s ++ " successful, " ++ toString f ++ " failed" ∧
      st'.custom_logs.getLast? = some ⟨"INFO",
        "Installation complete: " ++ toString s ++ "/" ++ toString 2 ++
          " packages installed"⟩ := by
  have h := install_summary_counts ⟨"", "Ready", [], 0, 0⟩ ["a", "b"]
    (fun p => if p = "a" then PkgOutcome.exitCode 0 else PkgOutcome.exitCode 1)
    (by decide)
  simpa using h

/-- C6: per-package errors are contained at the orchestration boundary.  Any
Python exception during one package (launch failure or otherwise) and any
nonzero exit code become an ERROR log entry plus a failed result, and the
batch then continues: with no user interrupt the whole list is processed
(`s + f = N`).  Only `KeyboardInterrupt` (UserAbort) escapes the per-package
handler and ends the run early (installer.py:283-288, 349-366). -/
theorem per_package_error_containment :
    (∀ (st : InstallerState) (pkg m : String),
      ∃ st', install_package_step st pkg (PkgOutcome.exn m) = .ok (st', false) ∧
        st'.custom_logs.getLast? =
          some ⟨"ERROR", "✗ Exception installing " ++ pkg ++ ": " ++ m⟩) ∧
    (∀ (st : InstallerState) (pkg : String) (c : Int), c ≠ 0 →
      ∃ st', install_package_step st pkg (PkgOutcome.exitCode c) = .ok (st', false) ∧
        st'.custom_logs.getLast? =
          some ⟨"ERROR",
            "✗ Failed to install " ++ pkg ++ " (exit code: " ++ toString c ++ ")"⟩) ∧
    (∀ (st : InstallerState) (pkgs : List String) (outcome : String → PkgOutcome),
      (∀ p ∈ pkgs, outcome p ≠ PkgOutcome.userAbort) →
      ∃ st' s f, install_packages st pkgs outcome = .ok (st', s, f) ∧
        s + f = pkgs.length) ∧
    (∀ (st : InstallerState) (outcome : String → PkgOutcome)
      (pre : List String) (p : String) (post : List String),
      (∀ q ∈ pre, outcome q ≠ PkgOutcome.userAbort) →
      outcome p = PkgOutcome.userAbort →
      install_packages st (pre ++ p :: post) outcome = .error ()) := by
  refine ⟨?_, ?_, ?_, ?_⟩
  · intro st pkg m
    refine ⟨{ st with
        current_package := pkg,
        installation_status := "✗ " ++ pkg ++ " error",
        custom_logs := add_log
          (add_log st.custom_logs ("Starting installation of " ++ pkg) "INFO")
          ("✗ Exception installing " ++ pkg ++ ": " ++ m) "ERROR" }, rfl, ?_⟩
    simp [add_log, List.getLast?_concat]
  · intro st pkg c hc
    refine ⟨{ st with
        current_package := pkg,
        installation_status := "✗ " ++ pkg ++ " failed",
        custom_logs := add_log
          (add_log st.custom_logs ("Starting installation of " ++ pkg) "INFO")
          ("✗ Failed to install " ++ pkg ++ " (exit code: " ++ toString c ++ ")")
          "ERROR" }, ?_, ?_⟩
    · simp only [install_package_step, if_neg hc]
    · simp [add_log, List.getLast?_concat]
  · intro st pkgs outcome h
    obtain ⟨st1, s, f, hloop, h1, h2⟩ := install_packages_loop_ok outcome pkgs
      { st with progress_total := pkgs.length, progress_current := 0 } 0 0 0 h
    refine ⟨{ st1 with
        current_package := "",
        installation_status :=
          "Complete: " ++ toString s ++ " successful, " ++ toString f ++ " failed",
        custom_logs := add_log st1.custom_logs
          ("Installation complete: " ++ toString s ++ "/" ++ toString pkgs.length ++
            " packages installed") "INFO" }, s, f, ?_, by omega⟩
    simp only [install_packages, hloop]
  · intro st outcome pre p post hpre habort
    have habort' : ∀ pre' : List String,
        (∀ q ∈ pre', outcome q ≠ PkgOutcome.userAbort) →
        ∀ (st0 : InstallerState) (i s f : Nat),
        install_packages_loop outcome st0 (pre' ++ p :: post) i s f = .error () := by
      intro pre'
      induction pre' with
      | nil =>
        intro _ st0 i s f
        simp [install_packages_loop, install_package_step, habort]
      | cons q pre'' ih =>
        intro hq' st0 i s f
        have hq := hq' q (List.mem_cons_self _ _)
        obtain ⟨st', b, hstep, _⟩ :=
          install_package_step_ok { st0 with progress_current := i } q hq
        cases b <;> simp only [List.cons_append, install_packages_loop, hstep] <;>
          simp [ih (fun r hr => hq' r (List.mem_cons_of_mem _ hr))]
    simp [install_packages, habort' pre hpre]

/-- Witness for C6: one exception, one nonzero exit, a mixed batch that
completes, and a batch ended early by a user interrupt. -/
theorem per_package_error_containment_witness :
    (∃ st', install_package_step ⟨"", "Ready", [], 0, 0⟩ "pkg" (PkgOutcome.exn "boom") =
        .ok (st', false) ∧
      st'.custom_logs.getLast? =
        some ⟨"ERROR", "✗ Exception installing pkg: boom"⟩) ∧
    (∃ st' s f,
      install_packages ⟨"", "Ready", [], 0, 0⟩ ["a", "b"]
        (fun p => if p = "a" then PkgOutcome.exn "no such binary"
                  else PkgOutcome.exitCode 1) = .ok (st', s, f) ∧ s + f = 2) ∧
    install_packages ⟨"", "Ready", [], 0, 0⟩ ["a", "b"]
      (fun _ => PkgOutcome.userAbort) = .error () := by
  have h := per_package_error_containment
  refine ⟨?_, ?_, ?_⟩
  · have h1 := h.1 ⟨"", "Ready", [], 0, 0⟩ "pkg" "boom"
    simpa using h1
  · have h2 := h.2.2.1 ⟨"", "Ready", [], 0, 0⟩ ["a", "b"]
      (fun p => if p = "a" then PkgOutcome.exn "no such binary" else PkgOutcome.exitCode 1)
      (by decide)
    simpa using h2
  · exact h.2.2.2 ⟨"", "Ready", [], 0, 0⟩ (fun _ => PkgOutcome.userAbort) [] "a" ["b"]
      (by simp) rfl

/-! ## C10: progress bar -/

/-- C10: `update_display` renders the progress bar only when
`progress_total > 0` (so the division is guarded), and whenever it renders
with `progress_current ≤ progress_total` the bar is exactly 20 cells:
`⌊current/total · 20⌋` full blocks followed by the remaining empty blocks
(installer.py:82-86). -/
theorem progress_bar_spec :
    ∀ current total : Nat,
      update_display_progress current 0 = none ∧
      (0 < total → current ≤ total →
        ∃ s, update_display_progress current total = some s ∧
          s.length = 20 ∧
          s.count '█' = current * 20 / total ∧
          s.count '░' = 20 - current * 20 / total) := by
  intro current total
  refine ⟨by simp [update_display_progress], ?_⟩
  intro ht hc
  have hle : current * 20 / total ≤ 20 := by
    have h1 : current * 20 ≤ total * 20 := Nat.mul_le_mul_right 20 hc
    have h2 : current * 20 / total ≤ total * 20 / total := Nat.div_le_div_right h1
    have h3 : total * 20 / total = 20 := Nat.mul_div_cancel_left 20 ht
    omega
  refine ⟨List.replicate (current * 20 / total) '█' ++
      List.replicate (20 - current * 20 / total) '░', ?_, ?_, ?_, ?_⟩
  · simp [update_display_progress, ht]
  · simp only [List.length_append, List.length_replicate]
    omega
  · simp [List.count_append, List.count_replicate]
  · simp [List.count_append, List.count_replicate]

/-- Witness for C10 at `current = 1`, `total = 2`. -/
theorem progress_bar_spec_witness :
    update_display_progress 1 0 = none ∧
    ∃ s, update_display_progress 1 2 = some s ∧
      s.length = 20 ∧ s.count '█' = 1 * 20 / 2 ∧ s.count '░' = 20 - 1 * 20 / 2 := by
  exact ⟨(progress_bar_spec 1 0).1, (progress_bar_spec 1 2).2 (by decide) (by decide)⟩

end StrixInstall
